import Mathlib

/-!
Verification of the FFmpeg audio (sidechain) compressor filter
(`libavfilter/af_sidechaincompress.c`).

The C code works on `double` samples; here every `double` value is embedded
as a real number (`ℝ`), so the theorems describe the exact real-number
semantics of the arithmetic expressions in the source.  Machine integers
that only select a branch (`link`, `detection`) are embedded as `Bool`,
matching the option ranges `{0,1}` and the truthiness tests in the code.
-/

open Classical

/-- The fake infinity constant from the source:
`#define FAKE_INFINITY (65536.0 * 65536.0)`. -/
noncomputable def FAKE_INFINITY : ℝ := 65536.0 * 65536.0

/-- The sentinel test from the source:
`#define IS_FAKE_INFINITY(value) (fabs(value-FAKE_INFINITY) < 1.0)`. -/
noncomputable def IS_FAKE_INFINITY (value : ℝ) : Prop :=
  |value - FAKE_INFINITY| < 1.0

/-- Modelled from the spec: the header `hermite.h` is not part of the
provided sources.  Per the spec (§4.3 step 5) the knee is smoothed with a
cubic Hermite interpolation between the endpoint `(x0, p0)` with tangent
`m0` and the endpoint `(x1, p1)` with tangent `m1`, evaluated at `x`.
This is the standard cubic Hermite interpolant on `[x0, x1]` written in
the Hermite basis, with the tangents scaled by the interval width. -/
noncomputable def hermite_interpolation (x x0 x1 p0 p1 m0 m1 : ℝ) : ℝ :=
  let t := (x - x0) / (x1 - x0)
  (2 * t ^ 3 - 3 * t ^ 2 + 1) * p0 + (t ^ 3 - 2 * t ^ 2 + t) * (x1 - x0) * m0
    + (-2 * t ^ 3 + 3 * t ^ 2) * p1 + (t ^ 3 - t ^ 2) * (x1 - x0) * m1

/-- The static transfer function `output_gain` from the source
(`af_sidechaincompress.c`, lines 103-128), embedded expression by
expression: `slope = log(lin_slope)`, halved when `detection` is set,
`gain`/`delta` chosen by the fake-infinity test on `ratio`, the Hermite
knee smoothing applied when `knee > 1.0 && slope < knee_stop`, and the
result `exp(gain - slope)`. -/
noncomputable def output_gain (lin_slope ratio thres knee knee_start knee_stop
    compressed_knee_stop : ℝ) (detection : Bool) : ℝ :=
  let slope0 := Real.log lin_slope
  let slope := if detection then slope0 * 0.5 else slope0
  let gain0 : ℝ := if IS_FAKE_INFINITY ratio then thres
                   else (slope - thres) / ratio + thres
  let delta : ℝ := if IS_FAKE_INFINITY ratio then 0 else 1 / ratio
  let gain : ℝ := if 1 < knee ∧ slope < knee_stop then
      hermite_interpolation slope knee_start knee_stop knee_start
        compressed_knee_stop 1 delta
    else gain0
  Real.exp (gain - slope)

/-- The user parameters of the filter, mirroring the option table of
`af_sidechaincompress.c` (lines 64-79).  `link = true` stands for the
option value `1` (`maximum`), `false` for `0` (`average`); `detection =
true` stands for `1` (`rms`), `false` for `0` (`peak`). -/
structure Params where
  threshold : ℝ
  ratio : ℝ
  attack : ℝ
  release : ℝ
  makeup : ℝ
  knee : ℝ
  mix : ℝ
  link : Bool
  detection : Bool

/-- The fields of `SidechainCompressContext` that the processing code
reads (the derived coefficients and the copied-through parameters). -/
structure Config where
  attack_coeff : ℝ
  release_coeff : ℝ
  ratio : ℝ
  makeup : ℝ
  mix : ℝ
  thres : ℝ
  knee : ℝ
  knee_start : ℝ
  knee_stop : ℝ
  lin_knee_start : ℝ
  compressed_knee_stop : ℝ
  link : Bool
  detection : Bool

/-- Coefficient derivation: the composition of `init` (lines 84-95) and
`compressor_config_output` (lines 130-139) of the source, as a pure
function of the parameters and the sample rate. -/
noncomputable def configOf (p : Params) (sample_rate : ℝ) : Config :=
  { attack_coeff := min 1 (1 / (p.attack * sample_rate / 4000))
    release_coeff := min 1 (1 / (p.release * sample_rate / 4000))
    ratio := p.ratio
    makeup := p.makeup
    mix := p.mix
    thres := Real.log p.threshold
    knee := p.knee
    knee_start := Real.log (p.threshold / Real.sqrt p.knee)
    knee_stop := Real.log (p.threshold * Real.sqrt p.knee)
    lin_knee_start := p.threshold / Real.sqrt p.knee
    compressed_knee_stop :=
      (Real.log (p.threshold * Real.sqrt p.knee) - Real.log p.threshold)
        / p.ratio + Real.log p.threshold
    link := p.link
    detection := p.detection }

/-- Magnitude reduction across the channels of one detector sample
(`compressor`, lines 152-162).  The code starts from `fabs(scsrc[0])`
and then folds the remaining channels: maximum of absolute values when
`link == 1`, otherwise the sum of absolute values divided by the channel
count.  A sample is a list of channel values; the channel count is its
length.  The empty case is unreachable in the filter (audio frames have
at least one channel). -/
noncomputable def linkReduce (link : Bool) (sc : List ℝ) : ℝ :=
  match sc with
  | [] => 0
  | x0 :: rest =>
    if link then
      rest.foldl (fun a x => max (|x|) a) (|x0|)
    else
      (rest.foldl (fun a x => a + |x|) (|x0|)) / ((rest.length : ℝ) + 1)

/-- Detection shaping (`compressor`, lines 164-165): square the linked
magnitude when `detection` (rms) is set. -/
noncomputable def detMagnitude (link detection : Bool) (sc : List ℝ) : ℝ :=
  let m := linkReduce link sc
  if detection then m * m else m

/-- The asymmetric one-pole envelope update (`compressor`, line 167):
`lin_slope += (abs_sample - lin_slope) * (abs_sample > lin_slope ?
attack_coeff : release_coeff)`. -/
noncomputable def envUpdate (attack_coeff release_coeff ls m : ℝ) : ℝ :=
  ls + (m - ls) * (if m > ls then attack_coeff else release_coeff)

/-- Iterating the envelope update with a constant detector magnitude `m`,
starting from `ls`. -/
noncomputable def envIter (attack_coeff release_coeff m ls : ℝ) : ℕ → ℝ
  | 0 => ls
  | n + 1 => envUpdate attack_coeff release_coeff
      (envIter attack_coeff release_coeff m ls n) m

/-- The per-sample gain selection (`compressor`, lines 150 and 169-172):
`gain` starts at `1.0` and is replaced by `output_gain` exactly when
`lin_slope > 0.0 && lin_slope > lin_knee_start`. -/
noncomputable def gainAt (cfg : Config) (ls : ℝ) : ℝ :=
  if ls > 0 ∧ ls > cfg.lin_knee_start then
    output_gain ls cfg.ratio cfg.thres cfg.knee cfg.knee_start cfg.knee_stop
      cfg.compressed_knee_stop cfg.detection
  else 1

/-- One iteration of the sample loop of `compressor` (lines 149-172)
without the output fan-out: the detector magnitude is reduced and shaped,
`lin_slope` is updated, and the gain is computed from the updated
`lin_slope`.  Returns the new `lin_slope` and the gain. -/
noncomputable def compressorStep (cfg : Config) (ls : ℝ) (sc : List ℝ) : ℝ × ℝ :=
  let ls2 := envUpdate cfg.attack_coeff cfg.release_coeff ls
      (detMagnitude cfg.link cfg.detection sc)
  (ls2, gainAt cfg ls2)

/-- The output fan-out of `compressor` (lines 174-175): every channel of
the primary sample is multiplied by `gain * makeup * mix + (1 - mix)`. -/
noncomputable def applyGain (cfg : Config) (gain : ℝ) (p : List ℝ) : List ℝ :=
  p.map (fun x => x * (gain * cfg.makeup * cfg.mix + (1 - cfg.mix)))

/-- The sample loop of `compressor` (lines 149-179) over a primary block
and a detector block, threading `lin_slope`.  The loop runs for
`nb_samples` iterations; since `filter_frame` passes
`FFMIN` of the two frame sizes, the recursion stops when either block is
exhausted, and the remaining primary samples are returned untouched
(they are never written by the loop). -/
noncomputable def compressorRun (cfg : Config) :
    ℝ → List (List ℝ) → List (List ℝ) → List (List ℝ) × ℝ
  | ls, ps, [] => (ps, ls)
  | ls, [], _ :: _ => ([], ls)
  | ls, p :: ps, d :: ds =>
    let step := compressorStep cfg ls d
    let rest := compressorRun cfg step.1 ps ds
    (applyGain cfg step.2 p :: rest.1, rest.2)

/-- The single-input path `acompressor_filter_frame` (lines 335-347):
`compressor(s, sample, sample, nb_samples, inlink, inlink)` with the
detector buffer aliased to the primary buffer.  Within each loop
iteration the detector channels of sample `i` are read (lines 152-162)
before the gain multiplication writes sample `i` (lines 174-175), and
both pointers advance in lockstep, so the detector value of iteration
`i` is the not-yet-modified primary sample `i`. -/
noncomputable def acompressorRun (cfg : Config) :
    ℝ → List (List ℝ) → List (List ℝ) × ℝ
  | ls, [] => ([], ls)
  | ls, p :: ps =>
    let step := compressorStep cfg ls p
    let rest := acompressorRun cfg step.1 ps
    (applyGain cfg step.2 p :: rest.1, rest.2)

/-- Discriminator for `Except` results. -/
def exceptOk {ε α : Type} : Except ε α → Bool
  | Except.ok _ => true
  | Except.error _ => false

/-- The two-input `filter_frame` (lines 183-216) once both input frames
are present: it computes `nb_samples = FFMIN(...)` of the two frame
sizes, runs `compressor` over that many samples (leaving the rest of the
primary frame untouched), and forwards the primary frame.  There is no
error path for mismatched sample counts; the `Except` layer records that
the function returns normally. -/
noncomputable def filterFrameBoth (cfg : Config) (ls : ℝ)
    (main sc : List (List ℝ)) : Except Unit (List (List ℝ) × ℝ) :=
  Except.ok (compressorRun cfg ls main sc)

/-- A concrete configuration used to instantiate hypotheses of the
claim theorems. -/
noncomputable def cfgA : Config :=
  { attack_coeff := 1 / 2
    release_coeff := 1 / 2
    ratio := 2
    makeup := 1
    mix := 0
    thres := Real.log (1 / 8)
    knee := 2
    knee_start := Real.log (1 / 16)
    knee_stop := Real.log (1 / 4)
    lin_knee_start := 1 / 16
    compressed_knee_stop := 0
    link := false
    detection := false }

/-- A concrete parameter record (the option defaults of the filter). -/
noncomputable def paramsA : Params :=
  { threshold := 0.125
    ratio := 2
    attack := 20
    release := 250
    makeup := 2
    knee := 2.82843
    mix := 1
    link := false
    detection := true }

/-! ### Helper lemmas -/

lemma applyGain_mix_zero (cfg : Config) (hmix : cfg.mix = 0) (g : ℝ)
    (p : List ℝ) : applyGain cfg g p = p := by
  have h : ∀ x : ℝ, x * (g * cfg.makeup * cfg.mix + (1 - cfg.mix)) = x := by
    intro x
    rw [hmix]
    ring
  simp only [applyGain, h]
  exact List.map_id p

lemma compressorRun_fst_length (cfg : Config) :
    ∀ ds ps ls, ((compressorRun cfg ls ps ds).1).length = ps.length := by
  intro ds
  induction ds with
  | nil => intro ps ls; simp [compressorRun]
  | cons d ds ih =>
    intro ps ls
    cases ps with
    | nil => simp [compressorRun]
    | cons p ps =>
      simp only [compressorRun, List.length_cons, applyGain, List.length_map]
      rw [ih]

lemma compressorRun_fst_drop (cfg : Config) :
    ∀ ds ps ls,
      ((compressorRun cfg ls ps ds).1).drop ds.length = ps.drop ds.length := by
  intro ds
  induction ds with
  | nil => intro ps ls; simp [compressorRun]
  | cons d ds ih =>
    intro ps ls
    cases ps with
    | nil => simp [compressorRun]
    | cons p ps =>
      simp only [compressorRun, List.length_cons, List.drop_succ_cons]
      exact ih ps _

/-! ### Claim C5 -/

/-- Claim C5: with `mix = 0`, the compressor loop leaves every sample of
the primary block unchanged, for every state, detector block and
parameter setting: the applied multiplier `gain * makeup * 0 + (1 - 0)`
equals exactly 1. -/
theorem mix_zero_leaves_primary_unchanged (cfg : Config) (hmix : cfg.mix = 0) :
    ∀ ds ps ls, (compressorRun cfg ls ps ds).1 = ps := by
  intro ds
  induction ds with
  | nil => intro ps ls; simp [compressorRun]
  | cons d ds ih =>
    intro ps ls
    cases ps with
    | nil => simp [compressorRun]
    | cons p ps =>
      simp only [compressorRun]
      rw [applyGain_mix_zero cfg hmix, ih]

/-- Witness for C5 at a concrete configuration and blocks. -/
theorem mix_zero_leaves_primary_unchanged_witness :
    (compressorRun cfgA 0 [[1]] [[1]]).1 = [[1]] :=
  mix_zero_leaves_primary_unchanged cfgA rfl [[1]] [[1]] 0

/-! ### Claim C9 -/

/-- Claim C9: the single-input compressor path (`acompressor`), which
aliases the detector buffer to the primary buffer, computes exactly the
two-input path run with a detector block equal to the original,
unprocessed primary block: within each iteration the detector magnitude
of sample `i` is read before the gain multiplication writes sample `i`. -/
theorem acompressor_is_self_sidechain (cfg : Config) :
    ∀ ps ls, acompressorRun cfg ls ps = compressorRun cfg ls ps ps := by
  intro ps
  induction ps with
  | nil => intro ls; simp [acompressorRun, compressorRun]
  | cons p ps ih =>
    intro ls
    simp only [acompressorRun, compressorRun]
    rw [ih]

/-! ### Claim C2 -/

/-- Claim C2 counterexample: a primary block of 2 samples and a detector
block of 1 sample have differing sample counts, yet `filter_frame`
returns normally (no error is surfaced): it takes `FFMIN` of the two
counts and processes that many samples. -/
theorem filter_frame_mismatch_no_error :
    ([[(1:ℝ)], [1]].length ≠ [[(1:ℝ)]].length) ∧
      exceptOk (filterFrameBoth cfgA 0 [[1], [1]] [[1]]) = true := by
  constructor
  · simp
  · rfl

/-- Claim C2 amended: `filter_frame` does not require equal sample
counts and surfaces no error on mismatch; it processes the first
`min(n0, n1)` samples, leaves the remaining samples of the primary block
unchanged, and returns successfully. -/
theorem filter_frame_truncates (cfg : Config) (ls : ℝ)
    (main sc : List (List ℝ)) :
    exceptOk (filterFrameBoth cfg ls main sc) = true ∧
      ((compressorRun cfg ls main sc).1).length = main.length ∧
      ((compressorRun cfg ls main sc).1).drop (min main.length sc.length) =
        main.drop (min main.length sc.length) := by
  refine ⟨rfl, compressorRun_fst_length cfg sc main ls, ?_⟩
  rcases le_total main.length sc.length with h | h
  · rw [min_eq_left h]
    have hl := compressorRun_fst_length cfg sc main ls
    calc ((compressorRun cfg ls main sc).1).drop main.length
        = ((compressorRun cfg ls main sc).1).drop
            ((compressorRun cfg ls main sc).1).length := by rw [hl]
      _ = [] := List.drop_length _
      _ = main.drop main.length := (List.drop_length main).symm
  · rw [min_eq_right h]
    exact compressorRun_fst_drop cfg sc main ls

/-! ### Claims about the fake-infinity sentinel and the transfer curve -/

lemma not_fake_infinity_of_le (ratio : ℝ) (h2 : ratio ≤ 20) :
    ¬ IS_FAKE_INFINITY ratio := by
  simp only [IS_FAKE_INFINITY, FAKE_INFINITY, abs_sub_lt_iff, not_and, not_lt]
  intro _
  norm_num
  linarith

/-- Claim C10: for every ratio inside the declared option range `[1, 20]`
the sentinel check `|ratio - 65536*65536| < 1` is false, so `output_gain`
always takes the finite-ratio branch; the unbounded-ratio path is
unreachable under the program's own option bounds. -/
theorem ratio_in_range_never_fake_infinity (ratio : ℝ)
    (h1 : 1 ≤ ratio) (h2 : ratio ≤ 20) :
    ¬ IS_FAKE_INFINITY ratio ∧
      ∀ (lin_slope thres knee knee_start knee_stop compressed_knee_stop : ℝ)
        (detection : Bool),
        output_gain lin_slope ratio thres knee knee_start knee_stop
            compressed_knee_stop detection =
          (fun slope : ℝ =>
            Real.exp
              ((if 1 < knee ∧ slope < knee_stop then
                  hermite_interpolation slope knee_start knee_stop knee_start
                    compressed_knee_stop 1 (1 / ratio)
                else (slope - thres) / ratio + thres) - slope))
            (if detection then Real.log lin_slope * 0.5
             else Real.log lin_slope) := by
  have hnf := not_fake_infinity_of_le ratio h2
  refine ⟨hnf, ?_⟩
  intro lin_slope thres knee knee_start knee_stop compressed_knee_stop detection
  simp only [output_gain, hnf, if_false, eq_false hnf]

/-- Witness for C10 at the default ratio 2. -/
theorem ratio_in_range_never_fake_infinity_witness :
    ¬ IS_FAKE_INFINITY 2 :=
  (ratio_in_range_never_fake_infinity 2 (by norm_num) (by norm_num)).1

/-- Claim C6: when `ratio` is the fake-infinity sentinel, the gain
computer sets `gain = thres` and `delta = 0`; for every slope at or above
the knee (or any slope when `knee = 1`, which disables the Hermite
branch), the returned value is `exp(thres - slope)`, independent of the
finite-ratio line. -/
theorem fake_infinity_flattens (lin_slope ratio thres knee knee_start
    knee_stop compressed_knee_stop : ℝ) (detection : Bool)
    (hinf : IS_FAKE_INFINITY ratio)
    (hknee : knee = 1 ∨ knee_stop ≤
      (if detection then Real.log lin_slope * 0.5 else Real.log lin_slope)) :
    output_gain lin_slope ratio thres knee knee_start knee_stop
        compressed_knee_stop detection =
      Real.exp (thres -
        (if detection then Real.log lin_slope * 0.5
         else Real.log lin_slope)) := by
  have hno : ¬(1 < knee ∧
      (if detection then Real.log lin_slope * 0.5 else Real.log lin_slope)
        < knee_stop) := by
    rcases hknee with h | h
    · intro hc
      rw [h] at hc
      exact lt_irrefl 1 hc.1
    · intro hc
      exact absurd hc.2 (not_lt.mpr h)
  simp only [output_gain, eq_true hinf, eq_false hno, if_true, if_false]

/-- Witness for C6 at the sentinel ratio with a hard knee. -/
theorem fake_infinity_flattens_witness :
    output_gain 1 (65536.0 * 65536.0) 0 1 0 0 0 false =
      Real.exp (0 - Real.log 1) := by
  simpa using fake_infinity_flattens 1 (65536.0 * 65536.0) 0 1 0 0 0 false
    (by norm_num [IS_FAKE_INFINITY, FAKE_INFINITY]) (Or.inl rfl)

/-- Claim C1: the per-sample gain is the spec's piecewise curve: 1 when
`lin_slope <= 0` or `lin_slope <= lin_knee_start`; otherwise, with
`slope = ln(lin_slope)` halved under rms detection, the multiplier is
`exp(gain_log - slope)` where `gain_log = (slope - thres)/ratio + thres`
for finite ratio, replaced by the Hermite cubic between
`(knee_start, knee_start, tangent 1)` and
`(knee_stop, compressed_knee_stop, tangent 1/ratio)` exactly when
`knee > 1` and `slope < knee_stop`. -/
theorem static_transfer_curve (cfg : Config) (ls : ℝ)
    (hfin : ¬ IS_FAKE_INFINITY cfg.ratio) :
    gainAt cfg ls =
      if ls ≤ 0 ∨ ls ≤ cfg.lin_knee_start then 1
      else
        (fun slope : ℝ =>
          Real.exp
            ((if 1 < cfg.knee ∧ slope < cfg.knee_stop then
                hermite_interpolation slope cfg.knee_start cfg.knee_stop
                  cfg.knee_start cfg.compressed_knee_stop 1 (1 / cfg.ratio)
              else (slope - cfg.thres) / cfg.ratio + cfg.thres) - slope))
          (if cfg.detection then Real.log ls * 0.5 else Real.log ls) := by
  by_cases h : ls > 0 ∧ ls > cfg.lin_knee_start
  · rw [gainAt, if_pos h,
      if_neg (not_or.mpr ⟨not_le.mpr h.1, not_le.mpr h.2⟩)]
    simp only [output_gain, eq_false hfin, if_false]
  · have h2 : ls ≤ 0 ∨ ls ≤ cfg.lin_knee_start := by
      rcases not_and_or.mp h with h | h
      · exact Or.inl (not_lt.mp h)
      · exact Or.inr (not_lt.mp h)
    rw [gainAt, if_neg h, if_pos h2]

/-- Witness for C1 at a concrete configuration with finite ratio. -/
theorem static_transfer_curve_witness :
    gainAt cfgA 1 =
      if (1:ℝ) ≤ 0 ∨ (1:ℝ) ≤ cfgA.lin_knee_start then 1
      else
        (fun slope : ℝ =>
          Real.exp
            ((if 1 < cfgA.knee ∧ slope < cfgA.knee_stop then
                hermite_interpolation slope cfgA.knee_start cfgA.knee_stop
                  cfgA.knee_start cfgA.compressed_knee_stop 1 (1 / cfgA.ratio)
              else (slope - cfgA.thres) / cfgA.ratio + cfgA.thres) - slope))
          (if cfgA.detection then Real.log 1 * 0.5 else Real.log 1) :=
  static_transfer_curve cfgA 1
    (by norm_num [IS_FAKE_INFINITY, FAKE_INFINITY, cfgA, abs_sub_lt_iff])

/-! ### Claim C3 -/

lemma foldl_max_abs_nonneg (l : List ℝ) (b : ℝ) (hb : 0 ≤ b) :
    0 ≤ l.foldl (fun a x => max (|x|) a) b := by
  induction l generalizing b with
  | nil => exact hb
  | cons x l ih => exact ih _ (le_trans hb (le_max_right _ _))

lemma foldl_add_abs_nonneg (l : List ℝ) (b : ℝ) (hb : 0 ≤ b) :
    0 ≤ l.foldl (fun a x => a + |x|) b := by
  induction l generalizing b with
  | nil => exact hb
  | cons x l ih => exact ih _ (add_nonneg hb (abs_nonneg x))

lemma linkReduce_nonneg (link : Bool) (sc : List ℝ) :
    0 ≤ linkReduce link sc := by
  cases sc with
  | nil => simp [linkReduce]
  | cons x0 rest =>
    simp only [linkReduce]
    split
    · exact foldl_max_abs_nonneg rest _ (abs_nonneg x0)
    · exact div_nonneg (foldl_add_abs_nonneg rest _ (abs_nonneg x0))
        (by positivity)

lemma detMagnitude_nonneg (link detection : Bool) (sc : List ℝ) :
    0 ≤ detMagnitude link detection sc := by
  simp only [detMagnitude]
  split
  · exact mul_self_nonneg _
  · exact linkReduce_nonneg link sc

lemma envUpdate_nonneg (a r ls m : ℝ) (hls : 0 ≤ ls) (hm : 0 ≤ m)
    (ha0 : 0 ≤ a) (ha1 : a ≤ 1) (hr0 : 0 ≤ r) (hr1 : r ≤ 1) :
    0 ≤ envUpdate a r ls m := by
  rw [envUpdate]
  split
  · nlinarith [mul_nonneg hm ha0, mul_nonneg hls (sub_nonneg.mpr ha1)]
  · nlinarith [mul_nonneg hm hr0, mul_nonneg hls (sub_nonneg.mpr hr1)]

/-- Claim C3: with `attack_coeff` and `release_coeff` in `(0, 1]`, the
envelope update keeps `lin_slope >= 0` at each sample (the detector
magnitude is non-negative and the one-pole update is a convex combination
of two non-negative quantities), and therefore every processing call
started from `lin_slope >= 0` ends with `lin_slope >= 0`. -/
theorem lin_slope_stays_nonneg (cfg : Config)
    (ha0 : 0 < cfg.attack_coeff) (ha1 : cfg.attack_coeff ≤ 1)
    (hr0 : 0 < cfg.release_coeff) (hr1 : cfg.release_coeff ≤ 1) :
    (∀ ls sc, 0 ≤ ls → 0 ≤ (compressorStep cfg ls sc).1) ∧
      ∀ ds ps ls, 0 ≤ ls → 0 ≤ (compressorRun cfg ls ps ds).2 := by
  have hstep : ∀ ls sc, 0 ≤ ls → 0 ≤ (compressorStep cfg ls sc).1 := by
    intro ls sc hls
    exact envUpdate_nonneg _ _ _ _ hls
      (detMagnitude_nonneg cfg.link cfg.detection sc) ha0.le ha1 hr0.le hr1
  refine ⟨hstep, ?_⟩
  intro ds
  induction ds with
  | nil => intro ps ls hls; simpa [compressorRun] using hls
  | cons d ds ih =>
    intro ps ls hls
    cases ps with
    | nil => simpa [compressorRun] using hls
    | cons p ps =>
      simp only [compressorRun]
      exact ih ps _ (hstep ls d hls)

/-- Witness for C3 at a concrete configuration and blocks. -/
theorem lin_slope_stays_nonneg_witness :
    0 ≤ (compressorRun cfgA 0 [[1]] [[1]]).2 :=
  (lin_slope_stays_nonneg cfgA (by norm_num [cfgA]) (by norm_num [cfgA])
    (by norm_num [cfgA]) (by norm_num [cfgA])).2 [[1]] [[1]] 0 le_rfl

/-! ### Claim C8 -/

lemma foldl_max_abs_const (v : ℝ) :
    ∀ l : List ℝ, (∀ x ∈ l, |x| = v) →
      l.foldl (fun a x => max (|x|) a) v = v := by
  intro l
  induction l with
  | nil => intro _; rfl
  | cons x l ih =>
    intro h
    have hx : |x| = v := h x (List.mem_cons_self x l)
    simp only [List.foldl_cons, hx, max_self]
    exact ih (fun y hy => h y (List.mem_cons_of_mem x hy))

lemma foldl_add_abs_const (v : ℝ) :
    ∀ (l : List ℝ) (b : ℝ), (∀ x ∈ l, |x| = v) →
      l.foldl (fun a x => a + |x|) b = b + l.length * v := by
  intro l
  induction l with
  | nil => intro b _; simp
  | cons x l ih =>
    intro b h
    have hx : |x| = v := h x (List.mem_cons_self x l)
    simp only [List.foldl_cons, hx, List.length_cons]
    rw [ih (b + v) (fun y hy => h y (List.mem_cons_of_mem x hy))]
    push_cast
    ring

/-- Claim C8: when all channels of a detector sample have the same
absolute value, the magnitude reduction yields the same result under
`link = average` (sum of absolute values over channel count) and
`link = maximum` (maximum of absolute values). -/
theorem link_average_eq_maximum (sc : List ℝ) (v : ℝ)
    (h : ∀ x ∈ sc, |x| = v) :
    linkReduce false sc = linkReduce true sc := by
  cases sc with
  | nil => rfl
  | cons x0 rest =>
    have hx0 : |x0| = v := h x0 (List.mem_cons_self x0 rest)
    have hr : ∀ x ∈ rest, |x| = v :=
      fun y hy => h y (List.mem_cons_of_mem x0 hy)
    have h1 : linkReduce true (x0 :: rest)
        = rest.foldl (fun a x => max (|x|) a) (|x0|) := rfl
    have h2 : linkReduce false (x0 :: rest)
        = (rest.foldl (fun a x => a + |x|) (|x0|)) / ((rest.length : ℝ) + 1) :=
      rfl
    rw [h1, h2, hx0, foldl_max_abs_const v rest hr,
      foldl_add_abs_const v rest v hr]
    have hne : ((rest.length : ℝ) + 1) ≠ 0 := by positivity
    rw [div_eq_iff hne]
    ring

/-- Witness for C8 on a concrete one-channel sample. -/
theorem link_average_eq_maximum_witness :
    linkReduce false [(1:ℝ)] = linkReduce true [(1:ℝ)] :=
  link_average_eq_maximum [1] 1
    (by intro x hx; simp only [List.mem_singleton] at hx; subst hx; norm_num)

/-! ### Claim C7 -/

/-- Claim C7: coefficient derivation is a pure function of the parameters
and the sample rate computing exactly `thres = ln(threshold)`,
`knee_start = ln(threshold / sqrt(knee))`,
`knee_stop = ln(threshold * sqrt(knee))`,
`compressed_knee_stop = (knee_stop - thres)/ratio + thres`,
`attack_coeff = min(1, 1/(attack * sample_rate / 4000))` and
`release_coeff = min(1, 1/(release * sample_rate / 4000))`; and for
parameters inside the option ranges and a positive sample rate nothing
is singular: every logarithm argument is positive, the ratio divisor is
positive, and both smoothing coefficients lie in `(0, 1]`. -/
theorem coefficient_derivation (p : Params) (sr : ℝ)
    (ht1 : 0.000976563 ≤ p.threshold) (ht2 : p.threshold ≤ 1)
    (hra : 1 ≤ p.ratio) (hrb : p.ratio ≤ 20)
    (hka : 1 ≤ p.knee) (hkb : p.knee ≤ 8)
    (haa : 0.01 ≤ p.attack) (hab : p.attack ≤ 2000)
    (hrla : 0.01 ≤ p.release) (hrlb : p.release ≤ 9000)
    (hsr : 0 < sr) :
    ((configOf p sr).thres = Real.log p.threshold ∧
      (configOf p sr).knee_start = Real.log (p.threshold / Real.sqrt p.knee) ∧
      (configOf p sr).knee_stop = Real.log (p.threshold * Real.sqrt p.knee) ∧
      (configOf p sr).compressed_knee_stop =
        ((configOf p sr).knee_stop - (configOf p sr).thres) / p.ratio +
          (configOf p sr).thres ∧
      (configOf p sr).attack_coeff = min 1 (1 / (p.attack * sr / 4000)) ∧
      (configOf p sr).release_coeff = min 1 (1 / (p.release * sr / 4000))) ∧
    (0 < p.threshold ∧ 0 < p.threshold / Real.sqrt p.knee ∧
      0 < p.threshold * Real.sqrt p.knee ∧ 0 < p.ratio ∧
      0 < (configOf p sr).attack_coeff ∧ (configOf p sr).attack_coeff ≤ 1 ∧
      0 < (configOf p sr).release_coeff ∧ (configOf p sr).release_coeff ≤ 1) := by
  have hth : 0 < p.threshold := lt_of_lt_of_le (by norm_num) ht1
  have hkn : 0 < Real.sqrt p.knee :=
    Real.sqrt_pos.mpr (lt_of_lt_of_le one_pos hka)
  have hat : 0 < p.attack * sr / 4000 :=
    div_pos (mul_pos (lt_of_lt_of_le (by norm_num) haa) hsr) (by norm_num)
  have hrl : 0 < p.release * sr / 4000 :=
    div_pos (mul_pos (lt_of_lt_of_le (by norm_num) hrla) hsr) (by norm_num)
  exact ⟨⟨rfl, rfl, rfl, rfl, rfl, rfl⟩,
    hth, div_pos hth hkn, mul_pos hth hkn, lt_of_lt_of_le one_pos hra,
    lt_min one_pos (one_div_pos.mpr hat), min_le_left _ _,
    lt_min one_pos (one_div_pos.mpr hrl), min_le_left _ _⟩

/-- Witness for C7 at the option defaults and sample rate 48000. -/
theorem coefficient_derivation_witness :
    0 < (configOf paramsA 48000).attack_coeff ∧
      (configOf paramsA 48000).attack_coeff ≤ 1 := by
  obtain ⟨-, -, -, -, -, h1, h2, -, -⟩ :=
    coefficient_derivation paramsA 48000 (by norm_num [paramsA])
      (by norm_num [paramsA]) (by norm_num [paramsA]) (by norm_num [paramsA])
      (by norm_num [paramsA]) (by norm_num [paramsA]) (by norm_num [paramsA])
      (by norm_num [paramsA]) (by norm_num [paramsA]) (by norm_num [paramsA])
      (by norm_num)
  exact ⟨h1, h2⟩

/-! ### Claim C4 -/

lemma envIter_succ (a r m ls : ℝ) (n : ℕ) :
    envIter a r m ls (n + 1) = envUpdate a r (envIter a r m ls n) m := rfl

lemma le_envUpdate_of_le (a r ls m : ℝ) (ha0 : 0 ≤ a) (hr0 : 0 ≤ r)
    (h : ls ≤ m) : ls ≤ envUpdate a r ls m := by
  rw [envUpdate]
  split
  · nlinarith [mul_nonneg (sub_nonneg.mpr h) ha0]
  · have hz : m - ls = 0 := by
      rename_i hng
      have := not_lt.mp hng
      linarith
    rw [hz, zero_mul, add_zero]

lemma envUpdate_le_of_ge (a r ls m : ℝ) (hr0 : 0 ≤ r) (hr1 : r ≤ 1)
    (h : m ≤ ls) : m ≤ envUpdate a r ls m ∧ envUpdate a r ls m ≤ ls := by
  rw [envUpdate, if_neg (not_lt.mpr h)]
  constructor
  · nlinarith [mul_nonneg (sub_nonneg.mpr h) (sub_nonneg.mpr hr1)]
  · nlinarith [mul_nonneg (sub_nonneg.mpr h) hr0]

lemma envIter_below (a r m ls : ℝ) (ha1 : a ≤ 1) (hls : ls ≤ m) :
    ∀ n, envIter a r m ls n ≤ m ∧
      m - envIter a r m ls n = (1 - a) ^ n * (m - ls) := by
  intro n
  induction n with
  | zero => exact ⟨hls, by simp [envIter]⟩
  | succ n ih =>
    obtain ⟨hle, heq⟩ := ih
    rw [envIter_succ, envUpdate]
    by_cases hgt : m > envIter a r m ls n
    · rw [if_pos hgt]
      constructor
      · nlinarith [mul_nonneg (sub_nonneg.mpr ha1) (sub_nonneg.mpr hle)]
      · have hstep : m - (envIter a r m ls n +
            (m - envIter a r m ls n) * a)
            = (1 - a) * (m - envIter a r m ls n) := by ring
        rw [hstep, heq, pow_succ]
        ring
    · rw [if_neg hgt]
      have heqm : envIter a r m ls n = m := le_antisymm hle (not_lt.mp hgt)
      have h0 : (1 - a) ^ n * (m - ls) = 0 := by rw [← heq, heqm]; ring
      constructor
      · rw [heqm]; ring_nf; exact le_rfl
      · rw [heqm, pow_succ,
          show (1 - a) ^ n * (1 - a) * (m - ls)
            = (1 - a) * ((1 - a) ^ n * (m - ls)) by ring, h0]
        ring

lemma envIter_above (a r m ls : ℝ) (hr0 : 0 ≤ r) (hr1 : r ≤ 1)
    (hls : m ≤ ls) :
    ∀ n, m ≤ envIter a r m ls n ∧
      envIter a r m ls n - m = (1 - r) ^ n * (ls - m) := by
  intro n
  induction n with
  | zero => exact ⟨hls, by simp [envIter]⟩
  | succ n ih =>
    obtain ⟨hge, heq⟩ := ih
    rw [envIter_succ, envUpdate, if_neg (not_lt.mpr hge)]
    constructor
    · nlinarith [mul_nonneg (sub_nonneg.mpr hge) (sub_nonneg.mpr hr1)]
    · have hstep : envIter a r m ls n +
          (m - envIter a r m ls n) * r - m
          = (1 - r) * (envIter a r m ls n - m) := by ring
      rw [hstep, heq, pow_succ]
      ring

/-- Claim C4: for constant detector magnitude `m` and smoothing
coefficients in `(0, 1]`, iterating the envelope update from below `m`
gives a monotonically non-decreasing sequence that never exceeds `m` and
converges to `m`; from above `m`, a monotonically non-increasing sequence
that never drops below `m` and converges to `m` — the envelope never
overshoots its target in either direction. -/
theorem envelope_monotone_converges (a r m ls : ℝ)
    (ha0 : 0 < a) (ha1 : a ≤ 1) (hr0 : 0 < r) (hr1 : r ≤ 1) :
    (ls ≤ m →
      (∀ n, envIter a r m ls n ≤ envIter a r m ls (n + 1)) ∧
      (∀ n, envIter a r m ls n ≤ m) ∧
      Filter.Tendsto (envIter a r m ls) Filter.atTop (nhds m)) ∧
    (m ≤ ls →
      (∀ n, envIter a r m ls (n + 1) ≤ envIter a r m ls n) ∧
      (∀ n, m ≤ envIter a r m ls n) ∧
      Filter.Tendsto (envIter a r m ls) Filter.atTop (nhds m)) := by
  constructor
  · intro hls
    have hb := envIter_below a r m ls ha1 hls
    refine ⟨?_, fun n => (hb n).1, ?_⟩
    · intro n
      rw [envIter_succ]
      exact le_envUpdate_of_le a r _ m ha0.le hr0.le (hb n).1
    · have hfun : ∀ n, envIter a r m ls n = m - (1 - a) ^ n * (m - ls) := by
        intro n
        have := (hb n).2
        linarith
      have hpow : Filter.Tendsto (fun n : ℕ => (1 - a) ^ n)
          Filter.atTop (nhds 0) :=
        tendsto_pow_atTop_nhds_zero_of_lt_one (by linarith) (by linarith)
      have htend : Filter.Tendsto (fun n : ℕ => m - (1 - a) ^ n * (m - ls))
          Filter.atTop (nhds m) := by
        simpa using Filter.Tendsto.const_sub m (hpow.mul_const (m - ls))
      exact htend.congr (fun n => (hfun n).symm)
  · intro hls
    have hb := envIter_above a r m ls hr0.le hr1 hls
    refine ⟨?_, fun n => (hb n).1, ?_⟩
    · intro n
      rw [envIter_succ]
      exact (envUpdate_le_of_ge a r _ m hr0.le hr1 (hb n).1).2
    · have hfun : ∀ n, envIter a r m ls n = m + (1 - r) ^ n * (ls - m) := by
        intro n
        have := (hb n).2
        linarith
      have hpow : Filter.Tendsto (fun n : ℕ => (1 - r) ^ n)
          Filter.atTop (nhds 0) :=
        tendsto_pow_atTop_nhds_zero_of_lt_one (by linarith) (by linarith)
      have htend : Filter.Tendsto (fun n : ℕ => m + (1 - r) ^ n * (ls - m))
          Filter.atTop (nhds m) := by
        simpa using Filter.Tendsto.const_add m (hpow.mul_const (ls - m))
      exact htend.congr (fun n => (hfun n).symm)

/-- Witness for C4 with concrete coefficients, target and start value. -/
theorem envelope_monotone_converges_witness :
    Filter.Tendsto (envIter (1/2) (1/2) 1 0) Filter.atTop (nhds 1) :=
  ((envelope_monotone_converges (1/2) (1/2) 1 0 (by norm_num) (by norm_num)
    (by norm_num) (by norm_num)).1 (by norm_num)).2.2
